import Mathlib

/-!
Verification of the `advanced-vector` repository (`src/advanced-vector/vector.h`):
a raw-memory owner `RawMemory<T>` composed with a dynamic array `Vector<T>`.

Two shallow embeddings of the same source are developed:

* a functional model `Vec` over plain lists, for the value-level behaviour of
  the operations (growth policy, insert/erase shapes, assignment, invariant);
* an instrumented model `VecST` over elements that can be in a moved-from
  state, where copy/move constructors may fail (modelling throwing T
  constructors) and every operation also reports how many element
  move-constructions, copy-constructions and destructions it performed and
  how many storage blocks it allocated and released.  This model settles the
  exception-safety and leak claims.

In both models a vector state records the list of currently constructed
elements (the slots `[0, size)` of the C++ object), the capacity of its
`RawMemory` block, and (functional model) whether the buffer pointer is
non-null.  Moved-from elements are still constructed objects and therefore
still appear in the list (as `Elem.moved` in the instrumented model).
-/

namespace AdvVec

/-- Functional model of `Vector<T>`: `elems` are the constructed elements in
slots `[0, size_)`, `cap` is `data_.Capacity()`, `buf` is
`data_.GetAddress() != nullptr`. -/
structure Vec (α : Type) where
  elems : List α
  cap : Nat
  buf : Bool
deriving DecidableEq

/-- The container invariant stated by the spec: `0 <= length <= capacity`,
slots `[0, length)` constructed (which is what membership in `elems` denotes),
and a zero-capacity `RawMemory` has a null buffer (`Allocate(0)` returns
`nullptr`). -/
def Inv (v : Vec α) : Prop :=
  v.elems.length ≤ v.cap ∧ (v.cap = 0 → v.buf = false)

instance (v : Vec α) : Decidable (Inv v) := by
  unfold Inv; infer_instance

/-- `Vector()` — default constructor: `RawMemory()` is `{nullptr, 0}`. -/
def emptyV (α : Type) : Vec α := ⟨[], 0, false⟩

/-- `Vector(size_t size)` — allocates `size` slots and value-constructs
`size` elements (`d` models the value produced by `T()`). -/
def sizedV (n : Nat) (d : α) : Vec α := ⟨List.replicate n d, n, n != 0⟩

/-- `Vector(const Vector&)` — allocates exactly `other.size_` slots and
copy-constructs the `other.size_` elements. -/
def copyCtorV (v : Vec α) : Vec α := ⟨v.elems, v.elems.length, v.elems.length != 0⟩

/-- `Vector(Vector&&)` — steals the `RawMemory` (source buffer becomes
`{nullptr, 0}`) and sets `other.size_ = 0`.  Returns (new vector, source). -/
def moveCtorV (v : Vec α) : Vec α × Vec α :=
  (⟨v.elems, v.cap, v.buf⟩, ⟨[], 0, false⟩)

/-- `operator=(const Vector&)`. `addrEq` models the `this != &rhs` address
check.  If the source is larger than the capacity, copy-and-swap; otherwise
the storage is reused in place (copy-assign the common part, then either
copy-construct the extra tail or destroy the surplus tail), so the element
list becomes `w.elems` while capacity and buffer stay. -/
def copyAssignV (v w : Vec α) (addrEq : Bool) : Vec α :=
  if addrEq then v
  else if v.cap < w.elems.length then ⟨w.elems, w.elems.length, w.elems.length != 0⟩
  else ⟨w.elems, v.cap, v.buf⟩

/-- `operator=(Vector&&)`. `data_ = std::move(rhs.data_)` releases the old
buffer and takes the source block; `rhs` is left with `{nullptr, 0}` storage
and `size_ = 0`.  Returns (destination, source). -/
def moveAssignV (v w : Vec α) (addrEq : Bool) : Vec α × Vec α :=
  if addrEq then (v, w)
  else (⟨w.elems, w.cap, w.buf⟩, ⟨[], 0, false⟩)

/-- `Swap` — exchanges storage and sizes. -/
def swapV (v w : Vec α) : Vec α × Vec α :=
  (⟨w.elems, w.cap, w.buf⟩, ⟨v.elems, v.cap, v.buf⟩)

/-- `Reserve` — early-returns when `new_capacity <= Capacity()`, otherwise
relocates the elements into a fresh block of exactly `new_capacity` slots
(which is non-null since `new_capacity > cap ≥ 0`). -/
def reserveV (v : Vec α) (n : Nat) : Vec α :=
  if n ≤ v.cap then v else ⟨v.elems, n, true⟩

/-- `Resize` — grows capacity via `Reserve` when needed, then either
value-constructs the new tail slots or destroys the surplus tail. -/
def resizeV (v : Vec α) (n : Nat) (d : α) : Vec α :=
  let v1 := if v.cap < n then reserveV v n else v
  if v1.elems.length < n then
    ⟨v1.elems ++ List.replicate (n - v1.elems.length) d, v1.cap, v1.buf⟩
  else
    ⟨v1.elems.take n, v1.cap, v1.buf⟩

/-- The spare-capacity, not-at-the-end branch of `Emplace`, step by step:
`T temp(args...)`; `construct_at(data_ + size_, std::move(data_[size_-1]))`
(append the last element); `std::move_backward(insert_pos, end() - 1, end())`
(slots `[p+1, size)` receive the old slots `[p, size-1)`); finally
`*insert_pos = std::move(temp)`.  `l.getLastD x` is only a total stand-in for
`data_[size_ - 1]`; this branch is reached only when `p < l.length`. -/
def emplaceShift (l : List α) (p : Nat) (x : α) : List α :=
  let l1 := l ++ [l.getLastD x]
  let l2 := l1.take (p + 1) ++ ((l1.drop p).take (l.length - 1 - p) ++ l1.drop l.length)
  l2.set p x

/-- `Emplace(begin() + p, args...)` where `x` is the constructed new element.
With spare capacity: construct directly at the end when `p = size_`, else the
`emplaceShift` dance.  Otherwise: relocate into a fresh block of
`size_ == 0 ? 1 : 2 * size_` slots with the new element constructed at index
`p`.  Returns the vector and the index of the returned iterator. -/
def emplaceV (v : Vec α) (p : Nat) (x : α) : Vec α × Nat :=
  if v.elems.length < v.cap then
    if p = v.elems.length then (⟨v.elems ++ [x], v.cap, v.buf⟩, p)
    else (⟨emplaceShift v.elems p x, v.cap, v.buf⟩, p)
  else
    let nc := if v.elems.length = 0 then 1 else 2 * v.elems.length
    (⟨v.elems.take p ++ x :: v.elems.drop p, nc, true⟩, p)

/-- `PushBack` / `EmplaceBack` — `Emplace(end(), ...)`. -/
def pushBackV (v : Vec α) (x : α) : Vec α :=
  (emplaceV v v.elems.length x).1

/-- `Erase(begin() + p)` — `std::move(pos + 1, end(), pos)` then `PopBack()`;
returns the vector and the index of the returned iterator (`pos` itself). -/
def eraseV (v : Vec α) (p : Nat) : Vec α × Nat :=
  (⟨v.elems.take p ++ v.elems.drop (p + 1), v.cap, v.buf⟩, p)

/-- `PopBack` — destroys the last element. -/
def popBackV (v : Vec α) : Vec α :=
  ⟨v.elems.dropLast, v.cap, v.buf⟩

/-!
## Instrumented model

Elements carry a payload or are in the moved-from state; a move-construction
from a live element leaves the source moved-from.  The oracles `cF` and `mF`
say whether copy-constructing (resp. move-constructing) from a given element
value throws.  `Traits` records the two compile-time properties the source
queries: `std::is_nothrow_move_constructible_v<T>` and
`std::is_copy_constructible_v<T>`.
-/

/-- An element object: a live value or a moved-from object (still
constructed, destructor still owed). -/
inductive Elem where
  | live (v : Nat) : Elem
  | moved : Elem
deriving DecidableEq

/-- The compile-time properties of `T` consulted by
`MOVE_OR_COPY_IF_NOEXCEPT`. -/
structure Traits where
  nothrowMove : Bool
  copyable : Bool
deriving DecidableEq

/-- The branch condition of `MOVE_OR_COPY_IF_NOEXCEPT`:
`std::is_nothrow_move_constructible_v<T> || !std::is_copy_constructible_v<T>`. -/
def useMove (tr : Traits) : Bool :=
  tr.nothrowMove || !tr.copyable

/-- Operation counters: element move-constructions `mv`, element
copy-constructions `cp`, constructions of a new element from caller
arguments `nw`, element destructions `dt`, storage blocks allocated `al`
and released `fr` (only non-null blocks are counted). -/
structure Cnt where
  mv : Nat
  cp : Nat
  nw : Nat
  dt : Nat
  al : Nat
  fr : Nat
deriving DecidableEq

def cnt0 : Cnt := ⟨0, 0, 0, 0, 0, 0⟩

/-- Element objects constructed by an operation. -/
def Cnt.ctors (c : Cnt) : Nat := c.mv + c.cp + c.nw

/-- Instrumented vector state: constructed elements and capacity. -/
structure VecST where
  elems : List Elem
  cap : Nat
deriving DecidableEq

/-- `std::uninitialized_move_n` / `std::uninitialized_copy_n` over a source
range.  Elements are processed in order; these algorithms destroy the
destination objects they themselves constructed if a construction throws,
then rethrow.  On success: `(destination, updated source, counters)`; on
failure: `(updated source, counters)` — no destination object survives.
A move from `live v` produces `live v` and leaves the source `moved`; a
throwing constructor creates no object and leaves its source untouched. -/
def relocRange (mv : Bool) (cF mF : Elem → Bool) :
    List Elem → Except (List Elem × Cnt) (List Elem × List Elem × Cnt)
  | [] => .ok ([], [], cnt0)
  | e :: rest =>
    if mv then
      if mF e then .error (e :: rest, cnt0)
      else
        match relocRange mv cF mF rest with
        | .ok (d, r, c) => .ok (e :: d, .moved :: r, { c with mv := c.mv + 1 })
        | .error (r, c) => .error (.moved :: r, { c with mv := c.mv + 1, dt := c.dt + 1 })
    else
      if cF e then .error (e :: rest, cnt0)
      else
        match relocRange mv cF mF rest with
        | .ok (d, r, c) => .ok (e :: d, e :: r, { c with cp := c.cp + 1 })
        | .error (r, c) => .error (e :: r, { c with cp := c.cp + 1, dt := c.dt + 1 })

/-- `Reserve` in the instrumented model.  For `n > cap`: allocate a block of
`n` slots, run `MOVE_OR_COPY_IF_NOEXCEPT(old, new, size_)`, destroy the old
elements, swap storage (the old block is released when the local `RawMemory`
dies).  If the relocation throws, the new block is released by the local
object's destructor — which runs no element destructors — and the exception
propagates; the vector keeps its old storage. -/
def ReserveST (tr : Traits) (cF mF : Elem → Bool) (st : VecST) (n : Nat) :
    Except (VecST × Cnt) (VecST × Cnt) :=
  if n ≤ st.cap then .ok (st, cnt0)
  else
    match relocRange (useMove tr) cF mF st.elems with
    | .ok (d, _, c) =>
        .ok (⟨d, n⟩,
          { c with dt := c.dt + st.elems.length, al := c.al + 1,
                   fr := c.fr + (if st.cap = 0 then 0 else 1) })
    | .error (r, c) =>
        .error (⟨r, st.cap⟩, { c with al := c.al + 1, fr := c.fr + 1 })

/-- The reallocating branch of `Emplace` in the instrumented model.
`newF` says whether `std::construct_at(new_insert_pos, args...)` throws.
Steps, as in the source: allocate `size_ == 0 ? 1 : 2 * size_` slots;
relocate the `[0, p)` slots; construct the new element at index `p`;
relocate the `[p, size_)` slots; destroy the old elements; swap storage.
A throw after the first relocation propagates with the objects already
constructed in the new block never destroyed (the local `RawMemory`
destructor only releases the bytes). -/
def emplaceGrowST (tr : Traits) (cF mF : Elem → Bool) (newF : Bool)
    (st : VecST) (p : Nat) (x : Elem) : Except (VecST × Cnt) (VecST × Nat × Cnt) :=
  let nc := if st.elems.length = 0 then 1 else 2 * st.elems.length
  match relocRange (useMove tr) cF mF (st.elems.take p) with
  | .error (r, c) =>
      .error (⟨r ++ st.elems.drop p, st.cap⟩, { c with al := c.al + 1, fr := c.fr + 1 })
  | .ok (d1, r1, c1) =>
      if newF then
        -- BUG SITE: the `d1` objects stay constructed in the released block.
        .error (⟨r1 ++ st.elems.drop p, st.cap⟩, { c1 with al := c1.al + 1, fr := c1.fr + 1 })
      else
        match relocRange (useMove tr) cF mF (st.elems.drop p) with
        | .error (r2, c2) =>
            -- BUG SITE: `d1` and the new element stay constructed.
            .error (⟨r1 ++ r2, st.cap⟩,
              { mv := c1.mv + c2.mv, cp := c1.cp + c2.cp, nw := 1, dt := c1.dt + c2.dt,
                al := 1, fr := 1 })
        | .ok (d2, _, c2) =>
            .ok (⟨d1 ++ x :: d2, nc⟩, p,
              { mv := c1.mv + c2.mv, cp := c1.cp + c2.cp, nw := 1,
                dt := c1.dt + c2.dt + st.elems.length,
                al := 1, fr := if st.cap = 0 then 0 else 1 })

/-- `operator=(Vector&&)` in the instrumented model.  `addrEq` models the
`this != &rhs` address check.  `data_ = std::move(rhs.data_)` calls
`RawMemory::operator=(RawMemory&&)`, which `Deallocate`s the destination
buffer when it is non-null and takes over the source block; no element
destructor runs anywhere on this path.  Returns (destination, source,
counters). -/
def moveAssignST (v w : VecST) (addrEq : Bool) : VecST × VecST × Cnt :=
  if addrEq then (v, w, cnt0)
  else (⟨w.elems, w.cap⟩, ⟨[], 0⟩,
        { cnt0 with fr := if v.cap = 0 then 0 else 1 })

/-- `operator=(const Vector&)` in the instrumented model (failure-free run).
Source larger than capacity: copy-and-swap (`size` copy-constructions, then
the temporary destroys the old elements).  Otherwise in place: copy-assign
the overlap, copy-construct the extra tail or destroy the surplus tail. -/
def copyAssignST (v w : VecST) (addrEq : Bool) : VecST × Cnt :=
  if addrEq then (v, cnt0)
  else if v.cap < w.elems.length then
    (⟨w.elems, w.elems.length⟩,
     { cnt0 with cp := w.elems.length, dt := v.elems.length, al := 1,
                 fr := if v.cap = 0 then 0 else 1 })
  else
    (⟨w.elems, v.cap⟩,
     { cnt0 with cp := w.elems.length - v.elems.length,
                 dt := v.elems.length - w.elems.length })

/-!
## Storage-identity model (for storage independence of copies)

`operator new` returns a block distinct from every block already allocated;
this is modelled by a store indexed by block identifiers and an allocation
counter `next` such that every existing block has an identifier `< next`.
A vector here is a block identifier plus `size_` and `capacity_`; the
constructed elements of slots `[0, size)` are the entries of its block.
-/

/-- Heap of element lists, indexed by block identifier. -/
def Store (α : Type) : Type := Nat → List α

/-- A vector as a handle into the store. -/
structure VecH where
  blk : Nat
  size : Nat
  cap : Nat
deriving DecidableEq

/-- `Vector(const Vector&)` in the storage model: allocates the fresh block
`next` (`RawMemory(other.size_)`), copy-constructs the `other.size_`
elements into it.  Returns (copy, new store, new allocation counter). -/
def copyCtorH (s : Store α) (next : Nat) (v : VecH) : VecH × Store α × Nat :=
  (⟨next, v.size, v.size⟩,
   fun b => if b = next then (s v.blk).take v.size else s b,
   next + 1)

/-- `operator[]` assignment `w[i] = x`: writes through `data_ + i` of `w`'s
block only. -/
def writeH (s : Store α) (w : VecH) (i : Nat) (x : α) : Store α :=
  fun b => if b = w.blk then (s w.blk).set i x else s b

/-!
## Growth-sequence bookkeeping (for the doubling policy)
-/

/-- The capacities the spec says are observed at the growth points when `n`
elements are appended from empty: the powers of two `1, 2, 4, ...` up to the
first one `≥ n` (none when no append happens).  The first power `≥ n` is
`2 ^ Nat.clog 2 n`. -/
def specGrowthCaps (n : Nat) : List Nat :=
  if n = 0 then [] else (List.range (Nat.clog 2 n + 1)).map (2 ^ ·)

/-- The claim's relocation rule, in its own words, over an operation's
counters: every one of the `k` relocated elements was move-constructed when
the type's move constructor cannot fail or it has no usable copy
constructor, and every one was copy-constructed in every other case. -/
def relocSelection (tr : Traits) (c : Cnt) (k : Nat) : Prop :=
  ((tr.nothrowMove = true ∨ tr.copyable = false) → c.mv = k ∧ c.cp = 0) ∧
  (tr.nothrowMove = false → tr.copyable = true → c.cp = k ∧ c.mv = 0)

/-- Append `0, 1, ..., n-1` to a default-constructed vector via `PushBack`,
recording the new capacity at every append that found the capacity full. -/
def appendRun : Nat → Vec Nat × List Nat
  | 0 => (emptyV Nat, [])
  | n + 1 =>
    let r := appendRun n
    let v2 := (emplaceV r.1 r.1.elems.length n).1
    (v2, if r.1.elems.length < r.1.cap then r.2 else r.2 ++ [v2.cap])

/-! ## List helpers -/

theorem getLastD_irrel (l : List α) (d1 d2 : α) (h : l ≠ []) :
    l.getLastD d1 = l.getLastD d2 := by
  cases l with
  | nil => exact absurd rfl h
  | cons a t => rw [List.getLastD_cons d1 a t, List.getLastD_cons d2 a t]

theorem getLastD_drop (l : List α) (p : Nat) (x : α) (h : p < l.length) :
    (l.drop p).getLastD x = l.getLastD x := by
  induction p generalizing l with
  | zero => rfl
  | succ p ih =>
    cases l with
    | nil => simp at h
    | cons a t =>
      have ht : p < t.length := by simpa using h
      have ht2 : t ≠ [] := by
        intro hh
        rw [hh] at ht
        simp at ht
      calc ((a :: t).drop (p + 1)).getLastD x
          = (t.drop p).getLastD x := rfl
        _ = t.getLastD x := ih t ht
        _ = t.getLastD a := getLastD_irrel t x a ht2
        _ = (a :: t).getLastD x := (List.getLastD_cons x a t).symm

theorem dropLast_concat_getLastD (l : List α) (x : α) (h : l ≠ []) :
    l.dropLast ++ [l.getLastD x] = l := by
  induction l with
  | nil => exact absurd rfl h
  | cons a t ih =>
    cases t with
    | nil => simp
    | cons b u =>
      have h2 : (b :: u).dropLast ++ [(b :: u).getLastD x] = b :: u := ih (by simp)
      calc (a :: b :: u).dropLast ++ [(a :: b :: u).getLastD x]
          = a :: ((b :: u).dropLast ++ [(b :: u).getLastD a]) := by
            rw [List.getLastD_cons x a (b :: u)]
            simp
        _ = a :: ((b :: u).dropLast ++ [(b :: u).getLastD x]) := by
            rw [getLastD_irrel (b :: u) a x (by simp)]
        _ = a :: b :: u := by rw [h2]

theorem set_take_succ (l : List α) (p : Nat) (x : α) (h : p < l.length) :
    (l.take (p + 1)).set p x = l.take p ++ [x] := by
  induction p generalizing l with
  | zero =>
    cases l with
    | nil => simp at h
    | cons a t => simp
  | succ p ih =>
    cases l with
    | nil => simp at h
    | cons a t =>
      have ht : p < t.length := by simpa using h
      simp [List.take_succ_cons, List.set_cons_succ, ih t ht]

/-- The spare-capacity middle-insert dance of `Emplace` produces exactly the
take/insert/drop shape. -/
theorem emplaceShift_eq (l : List α) (p : Nat) (x : α) (h : p < l.length) :
    emplaceShift l p x = l.take p ++ x :: l.drop p := by
  have hp1 : p + 1 ≤ l.length := h
  have hA : (l ++ [l.getLastD x]).take (p + 1) = l.take (p + 1) := by
    rw [List.take_append_eq_append_take, Nat.sub_eq_zero_of_le hp1]
    simp
  have hB : (l ++ [l.getLastD x]).drop p = l.drop p ++ [l.getLastD x] := by
    rw [List.drop_append_eq_append_drop, Nat.sub_eq_zero_of_le (Nat.le_of_lt h)]
    simp
  have hC : (l.drop p ++ [l.getLastD x]).take (l.length - 1 - p)
      = (l.drop p).take (l.length - 1 - p) := by
    rw [List.take_append_eq_append_take]
    have hle : l.length - 1 - p ≤ (l.drop p).length := by
      simp
      omega
    rw [Nat.sub_eq_zero_of_le hle]
    simp
  have hD : (l ++ [l.getLastD x]).drop l.length = [l.getLastD x] := by
    rw [List.drop_append_eq_append_drop]
    simp
  have hE : (l.drop p).take (l.length - 1 - p) = (l.drop p).dropLast := by
    rw [List.dropLast_eq_take]
    congr 1
    simp
    omega
  have hne : l.drop p ≠ [] := by
    simp
    omega
  have hF : (l.drop p).dropLast ++ [l.getLastD x] = l.drop p := by
    rw [← getLastD_drop l p x h]
    exact dropLast_concat_getLastD _ x hne
  have hset : (l.take (p + 1) ++ l.drop p).set p x = (l.take (p + 1)).set p x ++ l.drop p := by
    apply List.set_append_left
    simp
    omega
  calc emplaceShift l p x
      = ((l ++ [l.getLastD x]).take (p + 1) ++
          (((l ++ [l.getLastD x]).drop p).take (l.length - 1 - p) ++
            (l ++ [l.getLastD x]).drop l.length)).set p x := by
        simp only [emplaceShift]
    _ = (l.take (p + 1) ++ ((l.drop p ++ [l.getLastD x]).take (l.length - 1 - p) ++
          [l.getLastD x])).set p x := by rw [hA, hB, hD]
    _ = (l.take (p + 1) ++ ((l.drop p).dropLast ++ [l.getLastD x])).set p x := by
          rw [hC, hE]
    _ = (l.take (p + 1) ++ l.drop p).set p x := by rw [hF]
    _ = (l.take (p + 1)).set p x ++ l.drop p := hset
    _ = (l.take p ++ [x]) ++ l.drop p := by rw [set_take_succ l p x h]
    _ = l.take p ++ x :: l.drop p := by simp

/-! ## Relocation lemmas -/

/-- Copy relocation never alters the source; it either succeeds with the
destination equal to the source and one copy-construction per element, or
fails having destroyed every destination object it had constructed. -/
theorem relocRange_copy_cases (cF mF : Elem → Bool) (l : List Elem) :
    (relocRange false cF mF l = .ok (l, l, { cnt0 with cp := l.length })) ∨
    (∃ c : Cnt, relocRange false cF mF l = .error (l, c) ∧
      c.mv = 0 ∧ c.nw = 0 ∧ c.dt = c.cp ∧ c.al = 0 ∧ c.fr = 0) := by
  induction l with
  | nil => left; rfl
  | cons e rest ih =>
    by_cases he : cF e = true
    · right
      refine ⟨cnt0, ?_, rfl, rfl, rfl, rfl, rfl⟩
      simp [relocRange, he]
    · have he2 : cF e = false := by
        cases hval : cF e
        · rfl
        · exact absurd hval he
      rcases ih with hok | ⟨c, herr, hmv, hnw, hdt, hal, hfr⟩
      · left
        simp [relocRange, he2, hok, cnt0]
      · right
        refine ⟨{ c with cp := c.cp + 1, dt := c.dt + 1 }, ?_, hmv, hnw, ?_, hal, hfr⟩
        · simp [relocRange, he2, herr]
        · simp [hdt]

/-- Move relocation either succeeds — destination equal to the source, one
move per element, sources all moved-from — or fails having destroyed every
destination object it constructed (`dt = mv`), with the source turned into
`k` moved-from elements followed by its untouched tail. -/
theorem relocRange_move_cases (cF mF : Elem → Bool) (l : List Elem) :
    relocRange true cF mF l
      = .ok (l, List.replicate l.length .moved, { cnt0 with mv := l.length }) ∨
    (∃ (r : List Elem) (c : Cnt) (k : Nat),
      relocRange true cF mF l = .error (r, c) ∧ k ≤ l.length ∧
      r = List.replicate k .moved ++ l.drop k ∧
      c.cp = 0 ∧ c.nw = 0 ∧ c.dt = c.mv ∧ c.al = 0 ∧ c.fr = 0) := by
  induction l with
  | nil => left; rfl
  | cons e rest ih =>
    by_cases he : mF e = true
    · right
      refine ⟨e :: rest, cnt0, 0, ?_, by omega, by simp, rfl, rfl, rfl, rfl, rfl⟩
      simp [relocRange, he]
    · have he2 : mF e = false := by
        cases hval : mF e
        · rfl
        · exact absurd hval he
      rcases ih with hok | ⟨r, c, k, herr, hk, hr, hcp, hnw, hdt, hal, hfr⟩
      · left
        simp [relocRange, he2, hok, cnt0, List.replicate_succ]
      · right
        refine ⟨.moved :: r, { c with mv := c.mv + 1, dt := c.dt + 1 }, k + 1,
          ?_, by simp; omega, ?_, by simp [hcp], by simp [hnw], by simp [hdt],
          by simp [hal], by simp [hfr]⟩
        · simp [relocRange, he2, herr]
        · rw [hr]
          simp [List.replicate_succ]

/-- Move relocation with an element type whose moves cannot fail: succeeds,
relocating every value and leaving the source elements moved-from. -/
theorem relocRange_move_ok (cF mF : Elem → Bool) (l : List Elem)
    (h : ∀ e ∈ l, mF e = false) :
    relocRange true cF mF l
      = .ok (l, List.replicate l.length .moved, { cnt0 with mv := l.length }) := by
  induction l with
  | nil => rfl
  | cons e rest ih =>
    have he : mF e = false := h e (by simp)
    have hrest : ∀ e ∈ rest, mF e = false := fun e he => h e (by simp [he])
    simp [relocRange, he, ih hrest, cnt0, List.replicate_succ]

/-- Copy relocation with an element type whose copies cannot fail:
succeeds and leaves the source untouched. -/
theorem relocRange_copy_ok (cF mF : Elem → Bool) (l : List Elem)
    (h : ∀ e ∈ l, cF e = false) :
    relocRange false cF mF l = .ok (l, l, { cnt0 with cp := l.length }) := by
  induction l with
  | nil => rfl
  | cons e rest ih =>
    have he : cF e = false := h e (by simp)
    have hrest : ∀ e ∈ rest, cF e = false := fun e he => h e (by simp [he])
    simp [relocRange, he, ih hrest, cnt0]

/-- Success run of the reallocating `Emplace` path when relocation is by
move and the element type's moves cannot fail. -/
theorem emplaceGrow_ok_move (tr : Traits) (cF mF : Elem → Bool) (st : VecST)
    (p : Nat) (x : Elem) (hu : useMove tr = true)
    (hmF : ∀ e ∈ st.elems, mF e = false) :
    emplaceGrowST tr cF mF false st p x
      = .ok (⟨st.elems.take p ++ x :: st.elems.drop p,
             if st.elems.length = 0 then 1 else 2 * st.elems.length⟩, p,
        ⟨(st.elems.take p).length + (st.elems.drop p).length, 0, 1,
         st.elems.length, 1, if st.cap = 0 then 0 else 1⟩) := by
  have h1 := relocRange_move_ok cF mF (st.elems.take p)
    (fun e he => hmF e (List.take_subset p st.elems he))
  have h2 := relocRange_move_ok cF mF (st.elems.drop p)
    (fun e he => hmF e (List.drop_subset p st.elems he))
  simp [emplaceGrowST, hu, h1, h2, cnt0]

/-- Success run of the reallocating `Emplace` path when relocation is by
copy and the element type's copies cannot fail. -/
theorem emplaceGrow_ok_copy (tr : Traits) (cF mF : Elem → Bool) (st : VecST)
    (p : Nat) (x : Elem) (hu : useMove tr = false)
    (hcF : ∀ e ∈ st.elems, cF e = false) :
    emplaceGrowST tr cF mF false st p x
      = .ok (⟨st.elems.take p ++ x :: st.elems.drop p,
             if st.elems.length = 0 then 1 else 2 * st.elems.length⟩, p,
        ⟨0, (st.elems.take p).length + (st.elems.drop p).length, 1,
         st.elems.length, 1, if st.cap = 0 then 0 else 1⟩) := by
  have h1 := relocRange_copy_ok cF mF (st.elems.take p)
    (fun e he => hcF e (List.take_subset p st.elems he))
  have h2 := relocRange_copy_ok cF mF (st.elems.drop p)
    (fun e he => hcF e (List.drop_subset p st.elems he))
  simp [emplaceGrowST, hu, h1, h2, cnt0]

/-! ## Invariant preservation helpers -/

theorem inv_emplaceV (v : Vec α) (p : Nat) (x : α) (hv : Inv v)
    (hp : p ≤ v.elems.length) : Inv (emplaceV v p x).1 := by
  obtain ⟨h1, h2⟩ := hv
  unfold emplaceV
  by_cases hlt : v.elems.length < v.cap
  · by_cases hpe : p = v.elems.length
    · simp only [if_pos hlt, if_pos hpe]
      refine ⟨?_, h2⟩
      show (v.elems ++ [x]).length ≤ v.cap
      simp
      omega
    · have hplt : p < v.elems.length := Nat.lt_of_le_of_ne hp hpe
      simp only [if_pos hlt, if_neg hpe]
      refine ⟨?_, h2⟩
      show (emplaceShift v.elems p x).length ≤ v.cap
      rw [emplaceShift_eq _ p x hplt]
      simp
      omega
  · simp only [if_neg hlt]
    have hl : (v.elems.take p ++ x :: v.elems.drop p).length = v.elems.length + 1 := by
      simp
      omega
    refine ⟨?_, ?_⟩
    · show (v.elems.take p ++ x :: v.elems.drop p).length
        ≤ (if v.elems.length = 0 then 1 else 2 * v.elems.length)
      rw [hl]
      split
      · omega
      · omega
    · show (if v.elems.length = 0 then 1 else 2 * v.elems.length) = 0 → true = false
      intro hc
      exfalso
      split at hc
      · omega
      · omega

theorem inv_reserveV (v : Vec α) (n : Nat) (hv : Inv v) : Inv (reserveV v n) := by
  obtain ⟨h1, h2⟩ := hv
  unfold reserveV
  split
  · exact ⟨h1, h2⟩
  · refine ⟨by show v.elems.length ≤ n; omega, ?_⟩
    show n = 0 → true = false
    intro hc
    omega

theorem inv_resizeV (v : Vec α) (n : Nat) (d : α) (hv : Inv v) :
    Inv (resizeV v n d) := by
  have key : ∀ v1 : Vec α, Inv v1 → n ≤ v1.cap →
      Inv (if v1.elems.length < n then
            (⟨v1.elems ++ List.replicate (n - v1.elems.length) d, v1.cap, v1.buf⟩ : Vec α)
          else ⟨v1.elems.take n, v1.cap, v1.buf⟩) := by
    rintro v1 ⟨g1, g2⟩ hn
    split
    · refine ⟨?_, g2⟩
      show (v1.elems ++ List.replicate (n - v1.elems.length) d).length ≤ v1.cap
      simp
      omega
    · refine ⟨?_, g2⟩
      show (v1.elems.take n).length ≤ v1.cap
      simp
      omega
  have hv1 : Inv (if v.cap < n then reserveV v n else v) := by
    split
    · exact inv_reserveV v n hv
    · exact hv
  have hn1 : n ≤ (if v.cap < n then reserveV v n else v).cap := by
    split
    · show n ≤ (reserveV v n).cap
      unfold reserveV
      rw [if_neg (by omega)]
    · omega
  exact key _ hv1 hn1

/-! ## Claims -/

/-- **C1.** The claim says every element object constructed by a failing
operation is destroyed before the failure propagates.  Evaluating the
embedded reallocating `Emplace` path refutes this: pushing back onto a full
one-element vector of a nothrow-move type whose new element constructor
throws performs one move-construction into the new block (`mv = 1`) and zero
destructions (`dt = 0`) before propagating — the relocated prefix is leaked
(and the surviving vector's element is left moved-from).  Likewise, for a
copy-relocating type whose suffix relocation throws, the prefix copy and the
new element (`cp = 1`, `nw = 1`) are never destroyed.  The storage blocks
themselves are all released (`al = fr = 1`), as the claim states. -/
theorem c1_emplace_realloc_leaks_constructed_elements :
    (emplaceGrowST ⟨true, true⟩ (fun _ => false) (fun _ => false) true
        ⟨[.live 7], 1⟩ 1 (.live 9)
      = .error (⟨[.moved], 1⟩, ⟨1, 0, 0, 0, 1, 1⟩)) ∧
    (⟨1, 0, 0, 0, 1, 1⟩ : Cnt).ctors = 1 ∧ (⟨1, 0, 0, 0, 1, 1⟩ : Cnt).dt = 0 ∧
    (emplaceGrowST ⟨false, true⟩ (fun e => e == Elem.live 8) (fun _ => false) false
        ⟨[.live 7, .live 8], 2⟩ 1 (.live 9)
      = .error (⟨[.live 7, .live 8], 2⟩, ⟨0, 1, 1, 0, 1, 1⟩)) ∧
    (⟨0, 1, 1, 0, 1, 1⟩ : Cnt).ctors = 2 ∧ (⟨0, 1, 1, 0, 1, 1⟩ : Cnt).dt = 0 :=
  ⟨rfl, rfl, rfl, rfl, rfl, rfl⟩

/-- **C2.** The claim says move-assignment destroys all of the destination's
previously live elements.  Evaluating the embedded code: move-assigning into
a vector holding one live element transfers the source's elements and
capacity and empties the source as claimed, but performs zero element
destructions (`dt = 0`) — `RawMemory::operator=(RawMemory&&)` only
`Deallocate`s the destination buffer, so the one live element's destructor
never runs. -/
theorem c2_move_assign_runs_no_destructors :
    moveAssignST ⟨[.live 3], 1⟩ ⟨[.live 4], 1⟩ false
      = (⟨[.live 4], 1⟩, ⟨[], 0⟩, ⟨0, 0, 0, 0, 0, 1⟩) ∧
    (⟨[Elem.live 3], 1⟩ : VecST).elems.length = 1 ∧
    (⟨0, 0, 0, 0, 0, 1⟩ : Cnt).dt = 0 :=
  ⟨rfl, rfl, rfl⟩

/-- **C3**, counterexample to the claim as stated.  For an element type with
no copy constructor and a throwing move constructor (`Traits ⟨false, false⟩`,
the forced-move case of `MOVE_OR_COPY_IF_NOEXCEPT`), a `Reserve` whose
second move throws leaves the container's first element moved-from: the
element values are not "exactly as before the call". -/
theorem c3_reserve_not_strong_for_throwing_move_only :
    ReserveST ⟨false, false⟩ (fun _ => false) (fun e => e == Elem.live 7)
        ⟨[.live 5, .live 7], 2⟩ 4
      = .error (⟨[.moved, .live 7], 2⟩, ⟨1, 0, 0, 1, 1, 1⟩) ∧
    [Elem.moved, Elem.live 7] ≠ [Elem.live 5, Elem.live 7] :=
  ⟨rfl, by decide⟩

/-- **C9.** Self-assignment is the identity: the `this != &rhs` guard makes
both copy- and move-assignment to self leave the vector unchanged, with no
element constructions or destructions, in both models. -/
theorem c9_self_assignment_identity (v : Vec α) (w : VecST) :
    copyAssignV v v true = v ∧
    moveAssignV v v true = (v, v) ∧
    copyAssignST w w true = (w, cnt0) ∧
    moveAssignST w w true = (w, w, cnt0) :=
  ⟨rfl, rfl, rfl, rfl⟩

/-- **C10.** `Erase(p)` returns the iterator `begin() + p` into the shrunken
sequence: the element that followed the erased one now sits at the returned
position, and when the last element was erased the returned position is the
new end. -/
theorem c10_erase_returns_following_position (v : Vec α) (p : Nat)
    (hp : p < v.elems.length) :
    (eraseV v p).2 = p ∧
    (eraseV v p).1.elems.length = v.elems.length - 1 ∧
    (p + 1 < v.elems.length → ((eraseV v p).1.elems)[p]? = v.elems[p + 1]?) ∧
    (p + 1 = v.elems.length → (eraseV v p).2 = (eraseV v p).1.elems.length) := by
  refine ⟨rfl, ?_, ?_, ?_⟩
  · show (v.elems.take p ++ v.elems.drop (p + 1)).length = v.elems.length - 1
    simp
    omega
  · intro hq
    show (v.elems.take p ++ v.elems.drop (p + 1))[p]? = v.elems[p + 1]?
    have hA : (v.elems.take p).length = p := by
      simp
      omega
    rw [List.getElem?_append_right (by omega), hA, Nat.sub_self, List.getElem?_drop]
  · intro hq
    show p = (v.elems.take p ++ v.elems.drop (p + 1)).length
    simp
    omega

/-- Witness for `c10_erase_returns_following_position`. -/
theorem c10_witness :
    (eraseV (⟨[10, 20, 30], 3, true⟩ : Vec Nat) 1).2 = 1 ∧
    (eraseV (⟨[10, 20, 30], 3, true⟩ : Vec Nat) 1).1.elems.length = 3 - 1 ∧
    (1 + 1 < 3 → ((eraseV (⟨[10, 20, 30], 3, true⟩ : Vec Nat) 1).1.elems)[1]?
      = ([10, 20, 30] : List Nat)[1 + 1]?) ∧
    (1 + 1 = 3 → (eraseV (⟨[10, 20, 30], 3, true⟩ : Vec Nat) 1).2
      = (eraseV (⟨[10, 20, 30], 3, true⟩ : Vec Nat) 1).1.elems.length) :=
  c10_erase_returns_following_position (⟨[10, 20, 30], 3, true⟩ : Vec Nat) 1 (by decide)

/-- **C7.** Copy construction allocates a fresh block of exactly
`other.size_` slots, copies the elements, and the copy's storage is
independent of the source's: writing through either vector leaves the other
vector's block untouched. -/
theorem c7_copy_ctor_deep_and_independent (s : Store α) (next : Nat) (v : VecH)
    (i : Nat) (x : α) (halloc : v.blk < next) (hlen : (s v.blk).length = v.size) :
    (copyCtorH s next v).1.size = v.size ∧
    (copyCtorH s next v).1.cap = v.size ∧
    (copyCtorH s next v).2.1 (copyCtorH s next v).1.blk = s v.blk ∧
    writeH (copyCtorH s next v).2.1 (copyCtorH s next v).1 i x v.blk
      = (copyCtorH s next v).2.1 v.blk ∧
    writeH (copyCtorH s next v).2.1 v i x (copyCtorH s next v).1.blk
      = (copyCtorH s next v).2.1 (copyCtorH s next v).1.blk := by
  have hne : v.blk ≠ next := Nat.ne_of_lt halloc
  refine ⟨rfl, rfl, ?_, ?_, ?_⟩
  · show (if next = next then (s v.blk).take v.size else s next) = s v.blk
    rw [if_pos rfl, ← hlen, List.take_length]
  · show (if v.blk = next then _ else _) = _
    rw [if_neg hne]
  · show (if next = v.blk then _ else _) = _
    rw [if_neg (Ne.symm hne)]

/-- Witness for `c7_copy_ctor_deep_and_independent`. -/
theorem c7_witness :
    (copyCtorH (fun _ => [42]) 1 ⟨0, 1, 1⟩).1.size = 1 ∧
    (copyCtorH (fun _ => [42]) 1 ⟨0, 1, 1⟩).1.cap = 1 ∧
    (copyCtorH (fun _ => [42]) 1 ⟨0, 1, 1⟩).2.1 (copyCtorH (fun _ => [42]) 1 ⟨0, 1, 1⟩).1.blk
      = (fun _ => ([42] : List Nat)) 0 ∧
    writeH (copyCtorH (fun _ => [42]) 1 ⟨0, 1, 1⟩).2.1
        (copyCtorH (fun _ => [42]) 1 ⟨0, 1, 1⟩).1 0 99 0
      = (copyCtorH (fun _ => [42]) 1 ⟨0, 1, 1⟩).2.1 0 ∧
    writeH (copyCtorH (fun _ => [42]) 1 ⟨0, 1, 1⟩).2.1 ⟨0, 1, 1⟩ 0 99
        (copyCtorH (fun _ => [42]) 1 ⟨0, 1, 1⟩).1.blk
      = (copyCtorH (fun _ => [42]) 1 ⟨0, 1, 1⟩).2.1
          (copyCtorH (fun _ => [42]) 1 ⟨0, 1, 1⟩).1.blk :=
  c7_copy_ctor_deep_and_independent (fun _ => [42]) 1 ⟨0, 1, 1⟩ 0 99 (by decide) rfl

/-- **C5.** `Insert`/`Emplace` at position `p ≤ n` yields
`take p ++ [x] ++ drop p` — the old elements `[0, p)` stay, the old elements
`[p, n)` shift one index up, `x` lands at `p` — and `Erase` at `p` is the
structural inverse, restoring the original sequence. -/
theorem c5_insert_then_erase_restores (v : Vec α) (p : Nat) (x : α)
    (_hv : Inv v) (hp : p ≤ v.elems.length) :
    (emplaceV v p x).1.elems = v.elems.take p ++ x :: v.elems.drop p ∧
    (eraseV (emplaceV v p x).1 p).1.elems = v.elems := by
  have h1 : (emplaceV v p x).1.elems = v.elems.take p ++ x :: v.elems.drop p := by
    unfold emplaceV
    by_cases hlt : v.elems.length < v.cap
    · by_cases hpe : p = v.elems.length
      · simp only [if_pos hlt, if_pos hpe]
        show v.elems ++ [x] = _
        rw [hpe]
        simp
      · have hplt : p < v.elems.length := Nat.lt_of_le_of_ne hp hpe
        simp only [if_pos hlt, if_neg hpe]
        exact emplaceShift_eq v.elems p x hplt
    · simp only [if_neg hlt]
  refine ⟨h1, ?_⟩
  show (emplaceV v p x).1.elems.take p ++ (emplaceV v p x).1.elems.drop (p + 1)
      = v.elems
  rw [h1]
  have hA : (v.elems.take p).length = p := by
    simp
    omega
  rw [List.take_append_eq_append_take, List.drop_append_eq_append_drop, hA,
    Nat.sub_self, List.take_take]
  simp
  rw [List.drop_eq_nil_of_le (by omega)]
  simp [Nat.min_eq_left hp]

/-- Witness for `c5_insert_then_erase_restores`. -/
theorem c5_witness :
    (emplaceV (⟨[10, 20, 30], 3, true⟩ : Vec Nat) 1 99).1.elems
      = ([10, 20, 30] : List Nat).take 1 ++ 99 :: ([10, 20, 30] : List Nat).drop 1 ∧
    (eraseV (emplaceV (⟨[10, 20, 30], 3, true⟩ : Vec Nat) 1 99).1 1).1.elems
      = [10, 20, 30] :=
  c5_insert_then_erase_restores (⟨[10, 20, 30], 3, true⟩ : Vec Nat) 1 99
    (by decide) (by decide)

/-- **C6.** Whenever live elements are relocated to new storage — an
explicit capacity increase via `Reserve`, or growth during append/insert
(the reallocating `Emplace` path, at any insert position `p`) — every
element is relocated by move-construction exactly when the type is
nothrow-move constructible or has no copy constructor, and by
copy-construction in every other case (`relocSelection`, the claim's rule
over the trait fields). -/
theorem c6_relocation_move_iff_safe (tr : Traits) (cF mF : Elem → Bool)
    (st : VecST) (n p : Nat) (x : Elem) (hn : st.cap < n)
    (hp : p ≤ st.elems.length)
    (hcF : ∀ e ∈ st.elems, cF e = false) (hmF : ∀ e ∈ st.elems, mF e = false) :
    (∃ c : Cnt, ReserveST tr cF mF st n = .ok (⟨st.elems, n⟩, c) ∧
      relocSelection tr c st.elems.length) ∧
    (∃ c : Cnt, emplaceGrowST tr cF mF false st p x
      = .ok (⟨st.elems.take p ++ x :: st.elems.drop p,
             if st.elems.length = 0 then 1 else 2 * st.elems.length⟩, p, c) ∧
      relocSelection tr c st.elems.length) := by
  have hnle : ¬ n ≤ st.cap := by omega
  have hlen : (st.elems.take p).length + (st.elems.drop p).length
      = st.elems.length := by
    simp
    omega
  obtain ⟨nm, cpb⟩ := tr
  cases nm <;> cases cpb
  · -- nothrowMove = false, copyable = false: forced move
    refine ⟨⟨⟨st.elems.length, 0, 0, st.elems.length, 1,
        if st.cap = 0 then 0 else 1⟩, ?_, fun _ => ⟨rfl, rfl⟩, fun _ hc => by cases hc⟩,
      ⟨_, emplaceGrow_ok_move ⟨false, false⟩ cF mF st p x rfl hmF,
        fun _ => ⟨hlen, rfl⟩, fun _ hc => by cases hc⟩⟩
    simp [ReserveST, hnle, useMove, relocRange_move_ok cF mF st.elems hmF, cnt0]
  · -- nothrowMove = false, copyable = true: copy
    refine ⟨⟨⟨0, st.elems.length, 0, st.elems.length, 1,
        if st.cap = 0 then 0 else 1⟩, ?_, ?_, fun _ _ => ⟨rfl, rfl⟩⟩,
      ⟨_, emplaceGrow_ok_copy ⟨false, true⟩ cF mF st p x rfl hcF,
        ?_, fun _ _ => ⟨hlen, rfl⟩⟩⟩
    · simp [ReserveST, hnle, useMove, relocRange_copy_ok cF mF st.elems hcF, cnt0]
    · rintro (hc | hc) <;> cases hc
    · rintro (hc | hc) <;> cases hc
  · -- nothrowMove = true, copyable = false: move
    refine ⟨⟨⟨st.elems.length, 0, 0, st.elems.length, 1,
        if st.cap = 0 then 0 else 1⟩, ?_, fun _ => ⟨rfl, rfl⟩, fun hc _ => by cases hc⟩,
      ⟨_, emplaceGrow_ok_move ⟨true, false⟩ cF mF st p x rfl hmF,
        fun _ => ⟨hlen, rfl⟩, fun hc _ => by cases hc⟩⟩
    simp [ReserveST, hnle, useMove, relocRange_move_ok cF mF st.elems hmF, cnt0]
  · -- nothrowMove = true, copyable = true: move
    refine ⟨⟨⟨st.elems.length, 0, 0, st.elems.length, 1,
        if st.cap = 0 then 0 else 1⟩, ?_, fun _ => ⟨rfl, rfl⟩, fun hc _ => by cases hc⟩,
      ⟨_, emplaceGrow_ok_move ⟨true, true⟩ cF mF st p x rfl hmF,
        fun _ => ⟨hlen, rfl⟩, fun hc _ => by cases hc⟩⟩
    simp [ReserveST, hnle, useMove, relocRange_move_ok cF mF st.elems hmF, cnt0]

/-- Witness for `c6_relocation_move_iff_safe`: one nothrow-move instance
(relocated by moves) and one copyable throwing-move instance (relocated by
copies), each exercising both the `Reserve` and the growing-`Emplace`
relocation. -/
theorem c6_witness :
    ((∃ c : Cnt, ReserveST ⟨true, true⟩ (fun _ => false) (fun _ => false)
        ⟨[Elem.live 2], 1⟩ 2 = .ok (⟨[Elem.live 2], 2⟩, c) ∧
      relocSelection ⟨true, true⟩ c 1) ∧
     (∃ c : Cnt, emplaceGrowST ⟨true, true⟩ (fun _ => false) (fun _ => false) false
        ⟨[Elem.live 2], 1⟩ 1 (.live 9)
      = .ok (⟨[Elem.live 2].take 1 ++ .live 9 :: [Elem.live 2].drop 1,
             if ([Elem.live 2] : List Elem).length = 0 then 1
             else 2 * ([Elem.live 2] : List Elem).length⟩, 1, c) ∧
      relocSelection ⟨true, true⟩ c 1)) ∧
    ((∃ c : Cnt, ReserveST ⟨false, true⟩ (fun _ => false) (fun _ => false)
        ⟨[Elem.live 2], 1⟩ 2 = .ok (⟨[Elem.live 2], 2⟩, c) ∧
      relocSelection ⟨false, true⟩ c 1) ∧
     (∃ c : Cnt, emplaceGrowST ⟨false, true⟩ (fun _ => false) (fun _ => false) false
        ⟨[Elem.live 2], 1⟩ 1 (.live 9)
      = .ok (⟨[Elem.live 2].take 1 ++ .live 9 :: [Elem.live 2].drop 1,
             if ([Elem.live 2] : List Elem).length = 0 then 1
             else 2 * ([Elem.live 2] : List Elem).length⟩, 1, c) ∧
      relocSelection ⟨false, true⟩ c 1)) :=
  ⟨c6_relocation_move_iff_safe ⟨true, true⟩ (fun _ => false) (fun _ => false)
      ⟨[Elem.live 2], 1⟩ 2 1 (.live 9) (by decide) (by decide)
      (fun _ _ => rfl) (fun _ _ => rfl),
   c6_relocation_move_iff_safe ⟨false, true⟩ (fun _ => false) (fun _ => false)
      ⟨[Elem.live 2], 1⟩ 2 1 (.live 9) (by decide) (by decide)
      (fun _ _ => rfl) (fun _ _ => rfl)⟩

/-- **C3** (amended).  `Reserve(n)` with `n ≤ capacity` does nothing — no
constructions, no destructions, capacity unchanged.  With `n > capacity` —
for every element type and every failure pattern — `Reserve` either succeeds
with capacity exactly `n`, the same element values, one relocating
construction per element, the old elements destroyed and the blocks
accounted for; or it fails with every element object it constructed
destroyed again (`dt = mv + cp + nw`), the new storage discarded (the one
allocated block is the one released, `al = fr = 1`), and the container's
size and capacity exactly as before.  On failure the element values are also
exactly as before whenever relocation is by copy (`useMove = false`, the
strong guarantee); in the forced-move case the surviving sequence is `k`
moved-from elements followed by the untouched tail — which is why the
unamended claim fails, see `c3_reserve_not_strong_for_throwing_move_only`. -/
theorem c3_reserve_noop_and_strong_guarantee (tr : Traits) (cF mF : Elem → Bool)
    (st : VecST) (n : Nat) :
    (n ≤ st.cap → ReserveST tr cF mF st n = .ok (st, cnt0)) ∧
    (st.cap < n →
      (∃ c : Cnt, ReserveST tr cF mF st n = .ok (⟨st.elems, n⟩, c) ∧
        c.mv + c.cp = st.elems.length ∧ c.dt = st.elems.length ∧
        c.al = 1 ∧ c.fr = (if st.cap = 0 then 0 else 1)) ∨
      (∃ (st2 : VecST) (c : Cnt), ReserveST tr cF mF st n = .error (st2, c) ∧
        st2.cap = st.cap ∧ st2.elems.length = st.elems.length ∧
        c.dt = c.mv + c.cp + c.nw ∧ c.al = 1 ∧ c.fr = 1 ∧
        (useMove tr = false → st2 = st) ∧
        (∃ k : Nat, st2.elems = List.replicate k Elem.moved ++ st.elems.drop k))) := by
  constructor
  · intro hle
    simp [ReserveST, hle]
  · intro hlt
    have hnle : ¬ n ≤ st.cap := by omega
    cases hu : useMove tr with
    | false =>
      rcases relocRange_copy_cases cF mF st.elems with hok | ⟨c, herr, hmv, hnw, hdt, hal, hfr⟩
      · left
        refine ⟨⟨0, st.elems.length, 0, st.elems.length, 1,
          if st.cap = 0 then 0 else 1⟩, ?_, by simp, rfl, rfl, rfl⟩
        simp [ReserveST, hnle, hu, hok, cnt0]
      · right
        refine ⟨st, { c with al := c.al + 1, fr := c.fr + 1 }, ?_, rfl, rfl,
          ?_, ?_, ?_, fun _ => rfl, ⟨0, by simp⟩⟩
        · simp [ReserveST, hnle, hu, herr]
        · show c.dt = c.mv + c.cp + c.nw
          omega
        · show c.al + 1 = 1
          omega
        · show c.fr + 1 = 1
          omega
    | true =>
      rcases relocRange_move_cases cF mF st.elems with
        hok | ⟨r, c, k, herr, hk, hr, hcp, hnw, hdt, hal, hfr⟩
      · left
        refine ⟨⟨st.elems.length, 0, 0, st.elems.length, 1,
          if st.cap = 0 then 0 else 1⟩, ?_, by simp, rfl, rfl, rfl⟩
        simp [ReserveST, hnle, hu, hok, cnt0]
      · right
        refine ⟨⟨r, st.cap⟩, { c with al := c.al + 1, fr := c.fr + 1 }, ?_, rfl,
          ?_, ?_, ?_, ?_, ?_, ⟨k, hr⟩⟩
        · simp [ReserveST, hnle, hu, herr]
        · show r.length = st.elems.length
          rw [hr]
          simp
          omega
        · show c.dt = c.mv + c.cp + c.nw
          omega
        · show c.al + 1 = 1
          omega
        · show c.fr + 1 = 1
          omega
        · intro hc
          cases hc

/-- Witness for `c3_reserve_noop_and_strong_guarantee`. -/
theorem c3_witness :
    (ReserveST ⟨false, true⟩ (fun _ => false) (fun _ => false) ⟨[Elem.live 1], 3⟩ 2
      = .ok (⟨[Elem.live 1], 3⟩, cnt0)) ∧
    ((∃ c : Cnt, ReserveST ⟨false, true⟩ (fun _ => false) (fun _ => false)
        ⟨[Elem.live 1], 1⟩ 2 = .ok (⟨[Elem.live 1], 2⟩, c) ∧
        c.mv + c.cp = 1 ∧ c.dt = 1 ∧ c.al = 1 ∧
        c.fr = (if (1 : Nat) = 0 then 0 else 1)) ∨
     (∃ (st2 : VecST) (c : Cnt), ReserveST ⟨false, true⟩ (fun _ => false)
        (fun _ => false) ⟨[Elem.live 1], 1⟩ 2 = .error (st2, c) ∧
        st2.cap = 1 ∧ st2.elems.length = 1 ∧
        c.dt = c.mv + c.cp + c.nw ∧ c.al = 1 ∧ c.fr = 1 ∧
        (useMove ⟨false, true⟩ = false → st2 = ⟨[Elem.live 1], 1⟩) ∧
        (∃ k : Nat, st2.elems = List.replicate k Elem.moved ++ [Elem.live 1].drop k))) :=
  ⟨(c3_reserve_noop_and_strong_guarantee ⟨false, true⟩ (fun _ => false) (fun _ => false)
      ⟨[Elem.live 1], 3⟩ 2).1 (by decide),
   (c3_reserve_noop_and_strong_guarantee ⟨false, true⟩ (fun _ => false) (fun _ => false)
      ⟨[Elem.live 1], 1⟩ 2).2 (by decide)⟩

/-- After `n` appends from empty the size is `n`, the capacity is the first
power of two `≥ n`, and the capacities recorded at the growth points are
exactly the spec's power-of-two sequence. -/
theorem appendRun_spec (n : Nat) :
    (appendRun n).1.elems.length = n ∧
    (appendRun n).1.cap = (if n = 0 then 0 else 2 ^ Nat.clog 2 n) ∧
    (appendRun n).2 = specGrowthCaps n := by
  induction n with
  | zero => exact ⟨rfl, rfl, rfl⟩
  | succ n ih =>
    obtain ⟨hlen, hcap, hg⟩ := ih
    by_cases hn0 : n = 0
    · subst hn0
      refine ⟨rfl, ?_, ?_⟩
      · show (1 : Nat) = if (1 : Nat) = 0 then 0 else 2 ^ Nat.clog 2 1
        rw [if_neg (by omega), Nat.clog_one_right]
        simp
      · show ([1] : List Nat) = specGrowthCaps 1
        simp [specGrowthCaps, Nat.clog_one_right, List.range_succ]
    · rw [if_neg hn0] at hcap
      have hklb : n ≤ 2 ^ Nat.clog 2 n := Nat.le_pow_clog (by omega) n
      by_cases hfull : n < 2 ^ Nat.clog 2 n
      · -- spare capacity: the append does not grow
        have hclog : Nat.clog 2 (n + 1) = Nat.clog 2 n := by
          apply Nat.le_antisymm
          · rw [← Nat.le_pow_iff_clog_le (by omega)]
            omega
          · exact Nat.clog_mono_right 2 (by omega)
        have hlt : (appendRun n).1.elems.length < (appendRun n).1.cap := by
          rw [hlen, hcap]
          exact hfull
        refine ⟨?_, ?_, ?_⟩
        · show ((emplaceV (appendRun n).1 (appendRun n).1.elems.length n).1).elems.length
            = n + 1
          unfold emplaceV
          simp only [if_pos hlt, if_pos rfl]
          simp [hlen]
        · show ((emplaceV (appendRun n).1 (appendRun n).1.elems.length n).1).cap = _
          unfold emplaceV
          simp only [if_pos hlt, if_pos rfl]
          show (appendRun n).1.cap = _
          rw [hcap, if_neg (by omega), hclog]
        · show (if (appendRun n).1.elems.length < (appendRun n).1.cap then (appendRun n).2
              else (appendRun n).2 ++ [_]) = specGrowthCaps (n + 1)
          rw [if_pos hlt, hg]
          unfold specGrowthCaps
          rw [if_neg hn0, if_neg (by omega), hclog]
      · -- the capacity is full: the append grows by doubling
        have hn2 : n = 2 ^ Nat.clog 2 n := by omega
        have hpow : 2 ^ (Nat.clog 2 n + 1) = 2 * 2 ^ Nat.clog 2 n := by ring
        have hclog : Nat.clog 2 (n + 1) = Nat.clog 2 n + 1 := by
          apply Nat.le_antisymm
          · rw [← Nat.le_pow_iff_clog_le (by omega)]
            omega
          · have h2 : 2 ^ Nat.clog 2 n < n + 1 := by omega
            rw [Nat.pow_lt_iff_lt_clog (by omega)] at h2
            omega
        have hnlt : ¬ ((appendRun n).1.elems.length < (appendRun n).1.cap) := by
          rw [hlen, hcap]
          omega
        have hcap2 : ((emplaceV (appendRun n).1 (appendRun n).1.elems.length n).1).cap
            = 2 ^ (Nat.clog 2 (n + 1)) := by
          unfold emplaceV
          simp only [if_neg hnlt]
          show (if (appendRun n).1.elems.length = 0 then 1
              else 2 * (appendRun n).1.elems.length) = _
          rw [hlen, if_neg hn0, hclog, hpow]
          omega
        refine ⟨?_, ?_, ?_⟩
        · show ((emplaceV (appendRun n).1 (appendRun n).1.elems.length n).1).elems.length
            = n + 1
          unfold emplaceV
          simp only [if_neg hnlt]
          show ((appendRun n).1.elems.take (appendRun n).1.elems.length ++
              n :: (appendRun n).1.elems.drop (appendRun n).1.elems.length).length = n + 1
          simp [hlen]
        · show ((emplaceV (appendRun n).1 (appendRun n).1.elems.length n).1).cap = _
          rw [hcap2, if_neg (by omega)]
        · show (if (appendRun n).1.elems.length < (appendRun n).1.cap then (appendRun n).2
              else (appendRun n).2 ++ [((emplaceV (appendRun n).1
                (appendRun n).1.elems.length n).1).cap]) = specGrowthCaps (n + 1)
          rw [if_neg hnlt, hg, hcap2]
          unfold specGrowthCaps
          rw [if_neg hn0, if_neg (by omega), hclog]
          simp [List.range_succ]

/-- **C4.** Appending `n` elements to a default-constructed vector yields
size `n`; an append that finds the capacity full reallocates to capacity
`max(1, 2 * capacity)` (the code doubles `size_`, which equals the capacity
at that point); hence the capacities observed at the growth points are
exactly the powers of two up to the first one `≥ n`. -/
theorem c4_append_doubling_growth (n : Nat) (v : Vec Nat) (x : Nat)
    (hfull : v.elems.length = v.cap) :
    (appendRun n).1.elems.length = n ∧
    (pushBackV v x).cap = max 1 (2 * v.cap) ∧
    (appendRun n).2 = specGrowthCaps n := by
  refine ⟨(appendRun_spec n).1, ?_, (appendRun_spec n).2.2⟩
  unfold pushBackV emplaceV
  have hnlt : ¬ (v.elems.length < v.cap) := by omega
  simp only [if_neg hnlt]
  show (if v.elems.length = 0 then 1 else 2 * v.elems.length) = max 1 (2 * v.cap)
  rw [hfull]
  split
  · omega
  · omega

/-- Witness for `c4_append_doubling_growth`. -/
theorem c4_witness :
    (appendRun 5).1.elems.length = 5 ∧
    (pushBackV (⟨[9], 1, true⟩ : Vec Nat) 3).cap = max 1 (2 * 1) ∧
    (appendRun 5).2 = specGrowthCaps 5 :=
  c4_append_doubling_growth 5 (⟨[9], 1, true⟩ : Vec Nat) 3 rfl

/-- **C8.** Every public operation preserves the container invariant:
`0 ≤ length ≤ capacity`, the slots `[0, length)` hold the constructed
elements (the `elems` list), and a zero-capacity storage is null. -/
theorem c8_public_ops_preserve_invariant (v w : Vec α) (x d : α) (n p : Nat)
    (b : Bool) (hv : Inv v) (hw : Inv w) :
    Inv (emptyV α) ∧
    Inv (sizedV n d) ∧
    Inv (copyCtorV v) ∧
    Inv (moveCtorV v).1 ∧
    Inv (moveCtorV v).2 ∧
    Inv (copyAssignV v w b) ∧
    Inv (moveAssignV v w b).1 ∧
    Inv (moveAssignV v w b).2 ∧
    Inv (swapV v w).1 ∧
    Inv (swapV v w).2 ∧
    Inv (reserveV v n) ∧
    Inv (resizeV v n d) ∧
    (p ≤ v.elems.length → Inv (emplaceV v p x).1) ∧
    Inv (pushBackV v x) ∧
    (p < v.elems.length → Inv (eraseV v p).1) ∧
    (v.elems ≠ [] → Inv (popBackV v)) := by
  obtain ⟨hv1, hv2⟩ := hv
  obtain ⟨hw1, hw2⟩ := hw
  refine ⟨⟨Nat.le_refl 0, fun _ => rfl⟩, ?_, ?_, ⟨hv1, hv2⟩, ⟨Nat.le_refl 0, fun _ => rfl⟩,
    ?_, ?_, ?_, ⟨hw1, hw2⟩, ⟨hv1, hv2⟩, inv_reserveV v n ⟨hv1, hv2⟩,
    inv_resizeV v n d ⟨hv1, hv2⟩, fun hp => inv_emplaceV v p x ⟨hv1, hv2⟩ hp,
    inv_emplaceV v v.elems.length x ⟨hv1, hv2⟩ (Nat.le_refl _), ?_, ?_⟩
  · refine ⟨by simp [sizedV], ?_⟩
    intro hc
    have h0 : n = 0 := hc
    show (n != 0) = false
    simp [h0]
  · refine ⟨by simp [copyCtorV], ?_⟩
    intro hc
    have h0 : v.elems.length = 0 := hc
    show (v.elems.length != 0) = false
    simp [h0]
  · unfold copyAssignV
    split
    · exact ⟨hv1, hv2⟩
    · split
      · refine ⟨by simp, ?_⟩
        intro hc
        have h0 : w.elems.length = 0 := hc
        show (w.elems.length != 0) = false
        simp [h0]
      · exact ⟨by show w.elems.length ≤ v.cap; omega, hv2⟩
  · unfold moveAssignV
    split
    · exact ⟨hv1, hv2⟩
    · exact ⟨hw1, hw2⟩
  · unfold moveAssignV
    split
    · exact ⟨hw1, hw2⟩
    · exact ⟨by simp, by simp⟩
  · intro hp
    refine ⟨?_, hv2⟩
    show (v.elems.take p ++ v.elems.drop (p + 1)).length ≤ v.cap
    simp
    omega
  · intro hne
    refine ⟨?_, hv2⟩
    show v.elems.dropLast.length ≤ v.cap
    simp
    omega

/-- Witness for `c8_public_ops_preserve_invariant`. -/
theorem c8_witness :
    Inv (emplaceV (⟨[4], 2, true⟩ : Vec Nat) 0 7).1 ∧
    Inv (eraseV (⟨[4], 2, true⟩ : Vec Nat) 0).1 ∧
    Inv (popBackV (⟨[4], 2, true⟩ : Vec Nat)) ∧
    Inv (reserveV (⟨[4], 2, true⟩ : Vec Nat) 5) := by
  have h := c8_public_ops_preserve_invariant (⟨[4], 2, true⟩ : Vec Nat)
    (⟨[], 0, false⟩ : Vec Nat) 7 0 5 0 true (by decide) (by decide)
  exact ⟨h.2.2.2.2.2.2.2.2.2.2.2.2.1 (by decide),
    h.2.2.2.2.2.2.2.2.2.2.2.2.2.2.1 (by decide),
    h.2.2.2.2.2.2.2.2.2.2.2.2.2.2.2 (by decide),
    h.2.2.2.2.2.2.2.2.2.2.1⟩

end AdvVec
